import Mathlib

/-!
Verification of the DD1750 BOM-extraction and form-rendering pipeline.

The development shallowly embeds the two Python source files:

* `app.py` — the "level-marker style" extractor `extract_items_bom_style`
  (state machine over text lines with a `cur` record accumulator, a
  header-noise denylist, a quantity ceiling of 999, and final
  first-occurrence deduplication), plus the `paginate` chunker and the
  row-numbering arithmetic of `make_overlay`.
* `dd1750_core.py` — the "B-prefixed line style" extractor
  `extract_items_from_pdf` (one record per line that starts with `B ` and
  ends in an integer; NSN lookahead window of 9 lines; conservative
  description continuation), the page-count computation of
  `generate_dd1750_from_pdf`, and the `_wrap_to_width` greedy word-wrap.

Modelling conventions: a document is a `List (List String)` of raw text
lines per page (what `extract_text().splitlines()` yields); Python `str`
operations are modelled over `List Char` where character-level work is
needed; whitespace is the set {space, tab, newline, carriage return};
regular expressions are translated into explicit character-list functions
whose derivation from the regex is noted at each definition; the ReportLab
glyph-width oracle `pdfmetrics.stringWidth` is an external collaborator and
is modelled by an arbitrary additive per-character width function
`cw : Char → Nat`.
-/

namespace DD1750

/-- Whitespace test matching Python's `str.strip` / regex `\s` for the
character repertoire that occurs in extracted PDF text lines. -/
def isWs (c : Char) : Bool := c = ' ' || c = '\t' || c = '\n' || c = '\r'

/-- Removes trailing whitespace (the tail half of Python `str.strip`). -/
def trimEnd : List Char → List Char
  | [] => []
  | c :: rest =>
    match trimEnd rest with
    | [] => if isWs c then [] else [c]
    | r => c :: r

/-- Python `str.strip()` on a character list: drop leading whitespace, then
trailing whitespace. -/
def trimC (cs : List Char) : List Char := trimEnd (cs.dropWhile isWs)

/-- Python `str.strip()` at the `String` level. -/
def trimS (s : String) : String := String.mk (trimC s.toList)

/-- Python `str.upper()` (ASCII behaviour suffices for the denylists). -/
def upStr (s : String) : String := String.mk (s.toList.map Char.toUpper)

/-- Does `pat` occur at the head of `l`? (helper for substring search). -/
def startsWithC : List Char → List Char → Bool
  | [], _ => true
  | _ :: _, [] => false
  | p :: ps, c :: cs => p = c && startsWithC ps cs

/-- Does `needle` occur contiguously anywhere in the list? This is Python's
`needle in hay` for strings. -/
def hasSubC (needle : List Char) : List Char → Bool
  | [] => startsWithC needle []
  | c :: rest => startsWithC needle (c :: rest) || hasSubC needle rest

/-- Python `needle in hay` on `String`s. -/
def containsS (hay needle : String) : Bool := hasSubC needle.toList hay.toList

/-- Value of a digit string, most significant digit first (Python `int`). -/
def digitsToNat (ds : List Char) : Nat :=
  ds.foldl (fun n c => n * 10 + (c.toNat - '0'.toNat)) 0

/-- ASCII capital-letter test, for the `[A-Z]` character classes. -/
def isAZ (c : Char) : Bool := 'A' ≤ c && c ≤ 'Z'

/-! ### app.py : level-marker style extractor -/

/-- Regex `LV_RE = ^\s*([A-Z])\s*$` from app.py: after stripping
surrounding whitespace the line is a single capital letter. -/
def lvMatch (s : String) : Bool :=
  match trimC s.toList with
  | [c] => isAZ c
  | _ => false

/-- Regex `MAT_RE = ^\s*(\d{7,12})\s*$` from app.py: the stripped line is a
run of 7 to 12 digits. -/
def matMatch (s : String) : Bool :=
  let t := trimC s.toList
  t.all Char.isDigit && 7 ≤ t.length && t.length ≤ 12

/-- The string captured by `MAT_RE` (group 1: the digit run itself). -/
def matCapture (s : String) : String := String.mk (trimC s.toList)

/-- Regex search `QTY_RE = (\d+)\s*$` from app.py: the maximal digit run at
the end of the line (ignoring trailing whitespace), if any. -/
def qtySearch (s : String) : Option Nat :=
  let r := (s.toList.reverse).dropWhile isWs
  let ds := r.takeWhile Char.isDigit
  if ds.isEmpty then none else some (digitsToNat ds.reverse)

/-- app.py `looks_like_qty_line`: the uppercased line contains one of the
unit-of-issue / SCMC marker substrings. Call sites pad the line with a
space on each side, exactly as the source does. -/
def looks_like_qty_line (s : String) : Bool :=
  let u := upStr s
  [" X ", " U ", " EA ", " AY ", "9G", "9K", "SCMC", "CIIC"].any
    (fun tok => containsS u tok)

/-- app.py `is_header_noise`: the uppercased line contains one of the
denylisted header tokens as a substring. -/
def is_header_noise (s : String) : Bool :=
  let u := upStr s
  ["LV", "DESCRIPTION", "WTY", "ARC", "CIIC", "UI", "SCMC", "AUTH",
   "OH QTY", "COMPONENT OF END ITEM", "PAGE", "COEI"].any
    (fun tok => containsS u tok)

/-- Worker for `collapseTwoWs`. The flag records whether the scan is
inside a whitespace run that has already been replaced by the single
space. -/
def collapseTwoAux : Bool → List Char → List Char
  | _, [] => []
  | true, c :: rest =>
    if isWs c then collapseTwoAux true rest
    else c :: collapseTwoAux false rest
  | false, [c] => [c]
  | false, a :: b :: rest =>
    if isWs a && isWs b then ' ' :: collapseTwoAux true (b :: rest)
    else a :: collapseTwoAux false (b :: rest)

/-- Replaces runs of two or more whitespace characters by a single space:
regex `\s{2,}` → `" "` (a single whitespace character is left alone). -/
def collapseTwoWs (cs : List Char) : List Char := collapseTwoAux false cs

/-- app.py `normalize_desc`: collapse repeated whitespace, strip, and keep
the first 90 characters. -/
def normalize_desc (s : String) : String :=
  String.mk ((trimC (collapseTwoWs s.toList)).take 90)

/-- An extracted record of `extract_items_bom_style` — the
`{"desc", "mat", "qty"}` dictionary of app.py. -/
structure Item where
  desc : String
  mat : String
  qty : Nat
deriving DecidableEq

/-- The in-progress record accumulator `cur` of app.py (fields start out as
Python `None`). -/
structure Cur where
  desc : Option String
  mat : Option String
  qty : Option Nat
deriving DecidableEq

/-- The reset accumulator `{"desc": None, "mat": None, "qty": None}`. -/
def emptyCur : Cur := ⟨none, none, none⟩

/-- Python truthiness of an `Option String` field (`None` and `""` are
falsy). -/
def truthyS : Option String → Bool
  | none => false
  | some s => !(s = "")

/-- app.py `flush()`: emit `cur` if description and material are truthy and
the quantity is present and positive, then reset the accumulator. -/
def flushSt : Cur × List Item → Cur × List Item
  | (cur, items) =>
    let items' :=
      match cur.desc, cur.mat, cur.qty with
      | some d, some m, some q =>
        if !(d = "") && !(m = "") && 0 < q then items ++ [⟨d, m, q⟩] else items
      | _, _, _ => items
    (emptyCur, items')

/-- One iteration of the line loop of `extract_items_bom_style`, covering
the priority-ordered branches: skip blank/header-noise lines, flush on a
level marker, capture a material number, capture an in-range trailing
quantity from a unit-of-issue line, take the first qualifying line as the
description, and conservatively append one wrapped continuation line. -/
def bomLineStep (st : Cur × List Item) (raw : String) : Cur × List Item :=
  if trimS raw = "" || is_header_noise (trimS raw) then st
  else if lvMatch (trimS raw) then flushSt st
  else if matMatch (trimS raw) then
    ({ st.1 with mat := some (matCapture (trimS raw)) }, st.2)
  else if looks_like_qty_line (" " ++ trimS raw ++ " ") then
    match qtySearch (trimS raw) with
    | some q => if 0 ≤ q && q ≤ 999 then ({ st.1 with qty := some q }, st.2) else st
    | none => st
  else if st.1.desc = none then
    if 3 ≤ (trimS raw).toList.length && !matMatch (trimS raw) then
      ({ st.1 with desc := some (normalize_desc (trimS raw)) }, st.2)
    else st
  else if truthyS st.1.desc && st.1.mat = none
      && (st.1.desc.getD "").toList.length < 80 && (trimS raw).toList.length < 40
      && !looks_like_qty_line (" " ++ trimS raw ++ " ") then
    ({ st.1 with
        desc := some (normalize_desc ((st.1.desc.getD "") ++ " " ++ trimS raw)) }, st.2)
  else st

/-- The per-page line preparation of app.py:
`[l.rstrip() for l in txt.splitlines() if l.strip()]` followed by
`s = raw.strip()` in the loop — net effect: strip every line and drop the
ones that become empty. -/
def lineClean (page : List String) : List String :=
  (page.map trimS).filter (fun l => !(l = ""))

/-- The record list accumulated by `extract_items_bom_style` before
deduplication: fold the line step over every page (the accumulator
survives page boundaries), then flush the final in-progress record. -/
def extract_raw (pages : List (List String)) : List Item :=
  (flushSt (pages.foldl (fun st page => (lineClean page).foldl bomLineStep st)
    (emptyCur, []))).2

/-- The dedup loop of app.py with its `seen` set (modelled as the list of
keys inserted so far): keep an item only if its `(desc, mat, qty)` key —
i.e. the whole record — has not been seen. -/
def dedupGo (seen : List Item) : List Item → List Item
  | [] => []
  | it :: rest =>
    if it ∈ seen then dedupGo seen rest
    else it :: dedupGo (it :: seen) rest

/-- app.py duplicate removal: first occurrence wins, order preserved. -/
def dedupItems (l : List Item) : List Item := dedupGo [] l

/-- app.py `extract_items_bom_style`: parse, flush, deduplicate. -/
def extract_items_bom_style (pages : List (List String)) : List Item :=
  dedupItems (extract_raw pages)

/-- Specification-style first-occurrence deduplication, used to state the
refinement for claim C5: keep the head, erase all its later duplicates,
recurse. -/
def specDedup : List Item → List Item
  | [] => []
  | it :: rest => it :: specDedup (rest.filter (fun x => !(x = it)))
termination_by l => l.length
decreasing_by
  have h := List.length_filter_le (fun x => !(x = it : Bool)) rest
  simp only [List.length_cons]
  omega

/-! ### app.py : pagination and overlay row numbering -/

/-- Fuel-indexed worker for `chunksL`: each step consumes at least one
element (for a positive page size), so fuel equal to the list length makes
the fuel bound unreachable. -/
def chunksF {α : Type} (per : Nat) : Nat → List α → List (List α)
  | _, [] => []
  | 0, _ :: _ => []
  | fuel + 1, a :: l => ((a :: l).take per) :: chunksF per fuel (l.drop (per - 1))

/-- The chunk list built by app.py `paginate` for a positive page size:
`[items[i:i+per] for i in range(0, len(items), per)]`. (Python raises for
`per = 0`; the definition is only ever used with `per > 0`.) -/
def chunksL {α : Type} (per : Nat) (l : List α) : List (List α) :=
  chunksF per l.length l

/-- app.py `paginate`: the chunk list, or a single empty chunk when there
are no items (`... or [[]]`). -/
def paginate {α : Type} (items : List α) (per : Nat) : List (List α) :=
  match chunksL per items with
  | [] => [[]]
  | cs => cs

/-- The page-size app.py's caller `generate()` passes to `paginate`
(`paginate(items, per_page=18)`). -/
def app_rows_per_page : Nat := 18

/-- The row-grid capacity `make_overlay` computes from its template
geometry: `per_page = int((top - bottom) / row_h) + 1` with
`top = 8.55 in`, `bottom = 2.30 in`, `row_h = 0.30 in`, in points
(1 in = 72 pt), evaluated in exact rational arithmetic. -/
def app_overlay_per_page : Nat :=
  (Int.toNat ⌊((855 : ℚ) / 100 * 72 - (230 : ℚ) / 100 * 72) / ((30 : ℚ) / 100 * 72)⌋) + 1

/-- The box number `make_overlay` draws for the row at chunk index `c`
(0-based) and row index `r` (0-based):
`line_no = (p-1)*per_page + idx` with `p = c+1` and `idx = r+1`. -/
def app_line_no (c r : Nat) : Nat := c * app_overlay_per_page + (r + 1)

/-! ### dd1750_core.py : B-prefixed line style extractor -/

/-- An extracted record of dd1750_core.py (`BomItem` dataclass). -/
structure BomItem where
  line_no : Nat
  description : String
  nsn : String
  qty : Nat
deriving DecidableEq

/-- Regex `_NSN_RE = ^(\d{9})$`: the line is exactly nine digits. -/
def nsnMatch (s : String) : Bool :=
  s.toList.all Char.isDigit && s.toList.length = 9

/-- Fuel-indexed worker for `removeAllOcc` (Python `str.replace(pat, "")`):
each step consumes at least one character, so fuel equal to the list
length suffices. -/
def removeAllF (pat : List Char) : Nat → List Char → List Char
  | _, [] => []
  | 0, cs => cs
  | fuel + 1, c :: rest =>
    if !pat.isEmpty && startsWithC pat (c :: rest) then
      removeAllF pat fuel (rest.drop (pat.length - 1))
    else c :: removeAllF pat fuel rest

/-- Python `str.replace(pat, "")`: delete every (left-to-right,
non-overlapping) occurrence of `pat`. -/
def removeAllOcc (pat cs : List Char) : List Char := removeAllF pat cs.length cs

/-- Worker for `collapseWs`. The flag records whether the previous input
character was whitespace (in which case further whitespace is absorbed
into the already-emitted space). -/
def collapseWsAux : Bool → List Char → List Char
  | _, [] => []
  | prevWs, c :: rest =>
    if isWs c then
      if prevWs then collapseWsAux true rest
      else ' ' :: collapseWsAux true rest
    else c :: collapseWsAux false rest

/-- Replaces every run of whitespace by a single space: regex `\s+` → `" "`
(used by `_clean_desc` and `_wrap_to_width`). -/
def collapseWs (cs : List Char) : List Char := collapseWsAux false cs

/-- The boilerplate string `_clean_desc` deletes. -/
def boilerplate : List Char := "COMPONENT LISTING / HAND RECEIPT".toList

/-- dd1750_core `_clean_desc`: strip, collapse whitespace, remove the
boilerplate control string, strip again. -/
def clean_desc (s : String) : String :=
  String.mk (trimC (removeAllOcc boilerplate (collapseWs (trimC s.toList))))

/-- Regex match `_B_PREFIX_RE = ^B\s+(.+?)\s+(\d+)\s*$`, computed on the
character list: the line starts with `B` followed by whitespace, ends
(after optional trailing whitespace) in a run of digits that is preceded
by whitespace, and the non-empty lazy middle group is everything between
the leading and the final whitespace runs. Returns the middle group and
the parsed trailing integer. -/
def bHeadMatch (s : String) : Option (String × Nat) :=
  match s.toList with
  | 'B' :: rest =>
    match rest with
    | [] => none
    | r0 :: _ =>
      if isWs r0 then
        let afterB := rest.dropWhile isWs
        let rcs := afterB.reverse.dropWhile isWs
        let dsRev := rcs.takeWhile Char.isDigit
        let afterDigits := rcs.drop dsRev.length
        match dsRev, afterDigits with
        | [], _ => none
        | _ :: _, a :: _ =>
          if isWs a then
            let mid := (afterDigits.dropWhile isWs).reverse
            if mid.isEmpty then none
            else some (String.mk mid, digitsToNat dsRev.reverse)
          else none
        | _ :: _, [] => none
      else none
  | _ => none

/-- Regex match `^[A-Z]_` from the continuation filter: a capital letter
followed by an underscore at the start of the line. -/
def azUnderscoreStart (s : String) : Bool :=
  match s.toList with
  | c :: d :: _ => isAZ c && d = '_'
  | _ => false

/-- Regex search `\s\d+\s*$` from the continuation filter: the line ends
(after optional trailing whitespace) in a digit run immediately preceded
by a whitespace character. -/
def endsWsDigits (s : String) : Bool :=
  let r := s.toList.reverse.dropWhile isWs
  let ds := r.takeWhile Char.isDigit
  match ds, r.drop ds.length with
  | _ :: _, a :: _ => isWs a
  | _, _ => false

/-- The per-page item loop of `extract_items_from_pdf`: for each line
matching the B-prefixed pattern, clean the description, look ahead up to
nine lines for a nine-digit NSN, conservatively append the immediately
following line as a description continuation when it is neither an NSN,
a new item line, a material/part line, nor a line ending in a
quantity-like trailing integer, and emit the `(description, nsn, qty)`
triple. All other lines are skipped. -/
def corePage : List String → List (String × String × Nat)
  | [] => []
  | ln :: rest =>
    match bHeadMatch ln with
    | none => corePage rest
    | some (descRaw, qty) =>
      let desc := clean_desc descRaw
      let nsn := match (rest.take 9).find? (fun l => nsnMatch l) with
        | some l => l
        | none => ""
      let desc := match rest with
        | [] => desc
        | nxt :: _ =>
          if !nsnMatch nxt && (bHeadMatch nxt).isNone
              && !azUnderscoreStart nxt && !endsWsDigits nxt then
            clean_desc (desc ++ " " ++ nxt)
          else desc
      (desc, nsn, qty) :: corePage rest

/-- Number the accumulated triples sequentially
(`enumerate(items, start=1)` in the source). -/
def numberItems : Nat → List (String × String × Nat) → List BomItem
  | _, [] => []
  | n, (d, s, q) :: rest => ⟨n, d, s, q⟩ :: numberItems (n + 1) rest

/-- dd1750_core `extract_items_from_pdf`: per page, strip lines and drop
empties, run the item loop, concatenate across pages, and assign
1-based line numbers. -/
def extract_items_from_pdf (pages : List (List String)) : List BomItem :=
  numberItems 1 ((pages.map (fun p => corePage (lineClean p))).flatten)

/-- dd1750_core `ROWS_PER_PAGE`: the DD1750 grid has 40 rows. -/
def ROWS_PER_PAGE : Nat := 40

/-- Output page count of `generate_dd1750_from_pdf` as a function of the
extracted item count: one template page when there are no items,
otherwise `math.ceil(item_count / ROWS_PER_PAGE)` (the exact ceiling,
modelled by ceiling division on `Nat`). -/
def core_total_pages (n : Nat) : Nat :=
  if n = 0 then 1 else (n + ROWS_PER_PAGE - 1) / ROWS_PER_PAGE

/-- The chunk `generate_dd1750_from_pdf` renders on output page `p`
(0-based): `items[p*ROWS_PER_PAGE : (p+1)*ROWS_PER_PAGE]`. -/
def core_chunk (items : List BomItem) (p : Nat) : List BomItem :=
  (items.drop (p * ROWS_PER_PAGE)).take ROWS_PER_PAGE

/-! ### dd1750_core.py : `_wrap_to_width` greedy word wrap

The ReportLab metric `pdfmetrics.stringWidth(s, font, size)` is the sum of
the glyph widths of the characters of `s` for the chosen font and size; it
is modelled by an arbitrary per-character width function `cw`, applied
additively. Strings are modelled as `List Char`. -/

/-- Measured width of a string: additive per-character glyph widths. -/
def strW (cw : Char → Nat) (s : List Char) : Nat := (s.map cw).sum

/-- The local predicate `fits` of `_wrap_to_width`. -/
def fitsW (cw : Char → Nat) (maxW : Nat) (s : List Char) : Bool :=
  decide (strW cw s ≤ maxW)

/-- The binary search of the hard-break loop: the largest `mid` in
`[lo, hi]` with `f mid = true`, starting from the default `best = 1`.
Fuel-indexed (the interval shrinks every iteration, so `hi + 1` fuel is
always enough). -/
def bsearchBest (f : Nat → Bool) : Nat → Nat → Nat → Nat → Nat
  | 0, _, _, best => best
  | fuel + 1, lo, hi, best =>
    if lo ≤ hi then
      let mid := (lo + hi) / 2
      if f mid then bsearchBest f fuel (mid + 1) hi mid
      else bsearchBest f fuel lo (mid - 1) best
    else best

/-- The `while chunk:` hard-break loop of `_wrap_to_width`: repeatedly
find the longest fitting chunk of the over-wide word by binary search
(`lo, hi = 1, len(chunk)`, `best = 1`), emit it, and stop early (returning
the whole function's result, the `Sum.inl` case) once the line cap is
reached; otherwise give back the extended line list (`Sum.inr`) and the
word loop resumes with an empty current line. Fuel-indexed: every
iteration consumes at least one character of the chunk. -/
def hardBreakGo (cw : Char → Nat) (maxW maxLines : Nat) :
    Nat → List Char → List (List Char) → Sum (List (List Char)) (List (List Char))
  | _, [], lines => Sum.inr lines
  | 0, _ :: _, lines => Sum.inr lines
  | fuel + 1, c :: rest, lines =>
    let chunk := c :: rest
    let best := bsearchBest (fun m => fitsW cw maxW (chunk.take m))
      (chunk.length + 1) 1 chunk.length 1
    let lines' := lines ++ [chunk.take best]
    if maxLines ≤ lines'.length then Sum.inl (lines'.take maxLines)
    else hardBreakGo cw maxW maxLines fuel (chunk.drop best) lines'

/-- The `for w in words:` loop of `_wrap_to_width` over the remaining
words, carrying the emitted lines and the current line `cur`. Mirrors the
source exactly, including the final `if cur:` flush and the closing
truncation to `max_lines`, the early `return lines[:max_lines]` after
closing an over-full line, and the (source's) assignment `cur = w if
fits(w) else w`, which keeps an over-wide word as the current line in
both cases. -/
def wrapGo (cw : Char → Nat) (maxW maxLines : Nat) :
    List (List Char) → List (List Char) → List Char → List (List Char)
  | [], lines, cur =>
    let lines' := if !cur.isEmpty then lines ++ [cur] else lines
    if maxLines < lines'.length then lines'.take maxLines else lines'
  | w :: ws, lines, cur =>
    let trial := if cur.isEmpty then w else cur ++ ' ' :: w
    if fitsW cw maxW trial then wrapGo cw maxW maxLines ws lines trial
    else if cur.isEmpty then
      match hardBreakGo cw maxW maxLines w.length w lines with
      | Sum.inl res => res
      | Sum.inr lines' => wrapGo cw maxW maxLines ws lines' []
    else
      let lines' := lines ++ [cur]
      if maxLines ≤ lines'.length then lines'.take maxLines
      else wrapGo cw maxW maxLines ws lines' w

/-- Worker for `splitSp`: Python `str.split(" ")`, accumulating the
current word in reverse. -/
def splitSpAux : List Char → List Char → List (List Char)
  | [], acc => [acc.reverse]
  | c :: rest, acc =>
    if c = ' ' then acc.reverse :: splitSpAux rest []
    else splitSpAux rest (c :: acc)

/-- Python `text.split(" ")`: split at every single space character. -/
def splitSp (cs : List Char) : List (List Char) := splitSpAux cs []

/-- Python `" ".join(lines)` — used to state the word-wrap round-trip. -/
def joinSp : List (List Char) → List Char
  | [] => []
  | [w] => w
  | w :: ws => w ++ ' ' :: joinSp ws

/-- The normalization `_wrap_to_width` performs first:
`re.sub(r"\s+", " ", text).strip()`. -/
def normalizeWs (cs : List Char) : List Char := trimC (collapseWs cs)

/-- dd1750_core `_wrap_to_width`: normalize the text, return `[""]` when
it is empty, otherwise run the greedy word loop over `text.split(" ")`
with no emitted lines and an empty current line. -/
def wrap_to_width (cw : Char → Nat) (maxW maxLines : Nat) (text : List Char) :
    List (List Char) :=
  let t := normalizeWs text
  if t.isEmpty then [[]]
  else wrapGo cw maxW maxLines (splitSp t) [] []

/-- The unit character width used by the concrete wrap evaluations (a
monospaced metric: every glyph has width one). -/
def cwOne : Char → Nat := fun _ => 1

/-- No two adjacent whitespace characters (specification helper for the
wrap round-trip: normalized text satisfies it). -/
def noDblWs : List Char → Bool
  | a :: b :: rest => !(isWs a && isWs b) && noDblWs (b :: rest)
  | _ => true

/-! ## Theorems -/

/-- A fold preserves any invariant its step function preserves. -/
theorem foldl_inv {σ β : Type} (P : σ → Prop) (f : σ → β → σ)
    (h : ∀ s b, P s → P (f s b)) :
    ∀ (l : List β) (s : σ), P s → P (l.foldl f s) := by
  intro l
  induction l with
  | nil => intro s hs; exact hs
  | cons b bs ih =>
    intro s hs
    exact ih (f s b) (h s b hs)

/-- The flush step emits only items with a positive quantity bounded by the
state's quantity invariant, and resets the quantity field. -/
theorem flushSt_qty_inv (st : Cur × List Item)
    (h1 : ∀ q, st.1.qty = some q → q ≤ 999)
    (h2 : ∀ it ∈ st.2, 1 ≤ it.qty ∧ it.qty ≤ 999) :
    (∀ q, (flushSt st).1.qty = some q → q ≤ 999) ∧
      ∀ it ∈ (flushSt st).2, 1 ≤ it.qty ∧ it.qty ≤ 999 := by
  obtain ⟨cur, items⟩ := st
  refine ⟨fun q hq => by simp [flushSt, emptyCur] at hq, ?_⟩
  intro it hit
  simp only [flushSt] at hit
  split at hit
  next d m q hd hm hq =>
    split at hit
    next hcond =>
      rcases List.mem_append.mp hit with h | h
      · exact h2 it h
      · simp only [List.mem_singleton] at h
        subst h
        simp only [Bool.and_eq_true, Bool.not_eq_true', decide_eq_false_iff_not,
          decide_eq_true_eq] at hcond
        exact ⟨hcond.2, h1 q hq⟩
    next => exact h2 it hit
  next => exact h2 it hit

/-- Case analysis of the line step: it leaves the state unchanged,
flushes, or updates only the accumulator — and in the latter case the
items are untouched and the pending quantity is either preserved or set
to a value at most 999. -/
theorem bomLineStep_cases (st : Cur × List Item) (raw : String) :
    bomLineStep st raw = st ∨ bomLineStep st raw = flushSt st ∨
      ∃ cur', bomLineStep st raw = (cur', st.2) ∧
        (cur'.qty = st.1.qty ∨ ∃ q, cur'.qty = some q ∧ q ≤ 999) := by
  unfold bomLineStep
  split
  · exact Or.inl rfl
  split
  · exact Or.inr (Or.inl rfl)
  split
  · exact Or.inr (Or.inr ⟨_, rfl, Or.inl rfl⟩)
  split
  · split
    next q hq =>
      split
      next hrange =>
        refine Or.inr (Or.inr ⟨_, rfl, Or.inr ⟨q, rfl, ?_⟩⟩)
        simp only [Bool.and_eq_true, decide_eq_true_eq] at hrange
        exact hrange.2
      next => exact Or.inl rfl
    next => exact Or.inl rfl
  split
  · split
    · exact Or.inr (Or.inr ⟨_, rfl, Or.inl rfl⟩)
    · exact Or.inl rfl
  split
  · exact Or.inr (Or.inr ⟨_, rfl, Or.inl rfl⟩)
  · exact Or.inl rfl

/-- Each line step of the app.py extractor preserves the quantity
invariant: the pending quantity, when present, is at most 999, and every
emitted item has quantity between 1 and 999. -/
theorem bomLineStep_qty_inv (st : Cur × List Item) (raw : String)
    (h1 : ∀ q, st.1.qty = some q → q ≤ 999)
    (h2 : ∀ it ∈ st.2, 1 ≤ it.qty ∧ it.qty ≤ 999) :
    (∀ q, (bomLineStep st raw).1.qty = some q → q ≤ 999) ∧
      ∀ it ∈ (bomLineStep st raw).2, 1 ≤ it.qty ∧ it.qty ≤ 999 := by
  rcases bomLineStep_cases st raw with h | h | ⟨cur', h, hq⟩
  · rw [h]; exact ⟨h1, h2⟩
  · rw [h]; exact flushSt_qty_inv st h1 h2
  · rw [h]
    refine ⟨fun q hq' => ?_, h2⟩
    rcases hq with hcopy | ⟨q', hq2, hb⟩
    · exact h1 q (by rw [← hcopy]; exact hq')
    · rw [hq2] at hq'
      injection hq' with hqq
      omega

/-- The flush step only ever emits items with a non-empty description (its
guard checks Python truthiness of the `desc` field). -/
theorem flushSt_desc_inv (st : Cur × List Item)
    (h : ∀ it ∈ st.2, ¬ it.desc = "") :
    ∀ it ∈ (flushSt st).2, ¬ it.desc = "" := by
  obtain ⟨cur, items⟩ := st
  intro it hit
  simp only [flushSt] at hit
  split at hit
  next d m q hd hm hq =>
    split at hit
    next hcond =>
      rcases List.mem_append.mp hit with hmem | hmem
      · exact h it hmem
      · simp only [List.mem_singleton] at hmem
        subst hmem
        simp only [Bool.and_eq_true, Bool.not_eq_true', decide_eq_false_iff_not] at hcond
        exact hcond.1.1
    next => exact h it hit
  next => exact h it hit

/-- Each line step preserves non-emptiness of all emitted descriptions. -/
theorem bomLineStep_desc_inv (st : Cur × List Item) (raw : String)
    (h : ∀ it ∈ st.2, ¬ it.desc = "") :
    ∀ it ∈ (bomLineStep st raw).2, ¬ it.desc = "" := by
  rcases bomLineStep_cases st raw with he | he | ⟨cur', he, _⟩
  · rw [he]; exact h
  · rw [he]; exact flushSt_desc_inv st h
  · rw [he]; exact h

/-- Deduplication only keeps items that were in the input list. -/
theorem mem_dedupGo (l : List Item) :
    ∀ (seen : List Item), ∀ it ∈ dedupGo seen l, it ∈ l := by
  induction l with
  | nil => intro seen it hit; simp [dedupGo] at hit
  | cons a rest ih =>
    intro seen it hit
    simp only [dedupGo] at hit
    split at hit
    · exact List.mem_cons_of_mem a (ih seen it hit)
    · rcases List.mem_cons.mp hit with heq | hit2
      · exact heq ▸ List.mem_cons_self a rest
      · exact List.mem_cons_of_mem a (ih (a :: seen) it hit2)

/-- Every item of the deduplicated extractor output is a raw item. -/
theorem mem_extract_items_bom_style (pages : List (List String)) (it : Item)
    (h : it ∈ extract_items_bom_style pages) : it ∈ extract_raw pages :=
  mem_dedupGo _ [] it h

/-- Every raw item of the app.py extractor has quantity between 1 and
999. -/
theorem extract_raw_qty (pages : List (List String)) :
    ∀ it ∈ extract_raw pages, 1 ≤ it.qty ∧ it.qty ≤ 999 := by
  have hinv :
      (∀ q, ((pages.foldl (fun st page => (lineClean page).foldl bomLineStep st)
          (emptyCur, [])).1.qty = some q → q ≤ 999)) ∧
        ∀ it ∈ (pages.foldl (fun st page => (lineClean page).foldl bomLineStep st)
          (emptyCur, [])).2, 1 ≤ it.qty ∧ it.qty ≤ 999 := by
    refine foldl_inv
      (fun (st : Cur × List Item) => (∀ q, st.1.qty = some q → q ≤ 999) ∧
        ∀ it ∈ st.2, 1 ≤ it.qty ∧ it.qty ≤ 999) _ ?_ pages (emptyCur, []) ?_
    · intro st page hst
      exact foldl_inv
        (fun (st : Cur × List Item) => (∀ q, st.1.qty = some q → q ≤ 999) ∧
          ∀ it ∈ st.2, 1 ≤ it.qty ∧ it.qty ≤ 999) bomLineStep
        (fun s b hs => bomLineStep_qty_inv s b hs.1 hs.2) (lineClean page) st hst
    · constructor
      · intro q hq
        simp [emptyCur] at hq
      · intro it hit
        simp at hit
  exact (flushSt_qty_inv _ hinv.1 hinv.2).2

/-- Every raw item of the app.py extractor has a non-empty description. -/
theorem extract_raw_desc (pages : List (List String)) :
    ∀ it ∈ extract_raw pages, ¬ it.desc = "" := by
  have hinv : ∀ it ∈ (pages.foldl (fun st page => (lineClean page).foldl bomLineStep st)
      (emptyCur, [])).2, ¬ it.desc = "" := by
    refine foldl_inv (fun (st : Cur × List Item) => ∀ it ∈ st.2, ¬ it.desc = "") _ ?_
      pages (emptyCur, []) ?_
    · intro st page hst
      exact foldl_inv (fun (st : Cur × List Item) => ∀ it ∈ st.2, ¬ it.desc = "")
        bomLineStep (fun s b hs => bomLineStep_desc_inv s b hs) (lineClean page) st hst
    · intro it hit
      simp at hit
  exact flushSt_desc_inv _ hinv

/-- C1 (counterexample): the claim "a parsed quantity ≤ 0 … causes the
whole record to be discarded … in both extractor variants" is false for
the prefix-style extractor of dd1750_core.py: on the document consisting
of the single line `B FOO 0` it emits a record with quantity 0. -/
theorem C1_counterexample :
    ¬ (∀ it ∈ extract_items_from_pdf [["B FOO 0"]], 1 ≤ it.qty) := by
  decide

/-- C1 (amended): in the level-marker variant (app.py
`extract_items_bom_style`), every record in the extractor's output has
quantity between 1 and 999 — a quantity of 0 is never flushed and a
quantity above the 999 sanity ceiling is never stored. (The prefix-style
variant performs no quantity check at all; see the counterexample.) -/
theorem C1_amended_qty_bounds (pages : List (List String)) :
    ∀ it ∈ extract_items_bom_style pages, 1 ≤ it.qty ∧ it.qty ≤ 999 :=
  fun it hit => extract_raw_qty pages it (mem_extract_items_bom_style pages it hit)

/-- C1 (witness): the amended bound evaluated on a concrete document. -/
theorem C1_witness :
    (⟨"WRENCH SET", "7654321", 5⟩ : Item) ∈
        extract_items_bom_style [["A", "WRENCH SET", "7654321", "X U EA 9G 5"]] ∧
      (1 ≤ (5 : Nat) ∧ (5 : Nat) ≤ 999) :=
  ⟨by decide, C1_amended_qty_bounds [["A", "WRENCH SET", "7654321", "X U EA 9G 5"]]
    ⟨"WRENCH SET", "7654321", 5⟩ (by decide)⟩

/-- C4 (counterexample): the claim "every record emitted by the extractor
has a non-empty description after cleanup … in both extractor variants"
is false for the prefix-style extractor: on the single line
`B COMPONENT LISTING / HAND RECEIPT 5` the cleaned description is the
empty string, yet the record is emitted. -/
theorem C4_counterexample :
    ¬ (∀ it ∈ extract_items_from_pdf [["B COMPONENT LISTING / HAND RECEIPT 5"]],
      ¬ it.description = "") := by
  decide

/-- C4 (amended): in the level-marker variant, every emitted record has a
non-empty description — the flush guard requires Python truthiness of the
accumulated (cleaned) description. (The prefix-style variant can emit a
record whose cleaned description is empty; see the counterexample.) -/
theorem C4_amended_desc_nonempty (pages : List (List String)) :
    ∀ it ∈ extract_items_bom_style pages, ¬ it.desc = "" :=
  fun it hit => extract_raw_desc pages it (mem_extract_items_bom_style pages it hit)

/-- C4 (witness): the amended non-emptiness evaluated on a concrete
document. -/
theorem C4_witness :
    (⟨"HAMMER HEAD", "9988776", 3⟩ : Item) ∈
        extract_items_bom_style [["A", "HAMMER HEAD", "9988776", "X U EA 9G 3"]] ∧
      ¬ (⟨"HAMMER HEAD", "9988776", 3⟩ : Item).desc = "" :=
  ⟨by decide, C4_amended_desc_nonempty [["A", "HAMMER HEAD", "9988776", "X U EA 9G 3"]]
    ⟨"HAMMER HEAD", "9988776", 3⟩ (by decide)⟩

/-- C6: with prefix-style parsing, the input lines
`["B WIDGET ASSEMBLY 4", "012345678"]` yield exactly one record with
description `WIDGET ASSEMBLY`, identifier `012345678`, and quantity 4. -/
theorem C6_bstyle_scenario :
    extract_items_from_pdf [["B WIDGET ASSEMBLY 4", "012345678"]] =
      [⟨1, "WIDGET ASSEMBLY", "012345678", 4⟩] := by
  decide

/-- C7: with level-marker-style parsing, the input lines
`["A", "BRACKET MOUNT", "123456789", "X U EA 9G 2"]` yield exactly one
record with description `BRACKET MOUNT`, identifier `123456789`, and
quantity 2. -/
theorem C7_level_marker_scenario :
    extract_items_bom_style [["A", "BRACKET MOUNT", "123456789", "X U EA 9G 2"]] =
      [⟨"BRACKET MOUNT", "123456789", 2⟩] := by
  decide

/-- C10 (counterexample): the consequence claimed — "no description in
that extractor's output contains any of the denylist substrings" — is
false. Joining a wrapped-description continuation line inserts a single
space, which can create a denylist substring spanning the join: the lines
`FOO OH` and `QTY BAR` each pass the noise filter, yet the emitted
description `FOO OH QTY BAR` contains the denylist entry `OH QTY`. -/
theorem C10_counterexample :
    extract_items_bom_style [["A", "FOO OH", "QTY BAR", "1234567", "X U EA 9G 2"]] =
        [⟨"FOO OH QTY BAR", "1234567", 2⟩] ∧
      containsS (upStr "FOO OH QTY BAR") "OH QTY" = true := by
  decide

/-- C10 (amended): in the level-marker-style extractor, every line whose
uppercased (stripped) text contains a denylist string as a substring —
even inside a longer word, e.g. `VALVE` contains `LV` — is skipped
entirely: the line step leaves the extraction state, and hence every
record field, unchanged. (The further claim that no output description
contains a denylist substring fails, because collapsing whitespace or
joining a continuation line can create one across the join; see the
counterexample.) -/
theorem C10_amended_noise_skip (st : Cur × List Item) (s : String)
    (h : is_header_noise (trimS s) = true) : bomLineStep st s = st := by
  unfold bomLineStep
  rw [h]
  simp

/-- C10 (witness): the skip property evaluated on the line `VALVE`
(whose uppercase contains the denylist entry `LV`) from a mid-parse
state. -/
theorem C10_witness :
    is_header_noise (trimS "VALVE") = true ∧
      bomLineStep (⟨some "PUMP", none, none⟩, []) "VALVE" = (⟨some "PUMP", none, none⟩, []) :=
  ⟨by decide, C10_amended_noise_skip (⟨some "PUMP", none, none⟩, []) "VALVE" (by decide)⟩

/-- C2 (evaluation at the failing input): app.py paginates records into
chunks of `app_rows_per_page = 18` (the caller's `per_page=18`), but
`make_overlay` numbers rows with its geometry-derived capacity
`app_overlay_per_page = 21`. The record at chunk index 1, row 0 — the
19th record of a document with at least 19 records — is therefore shown
with sequence number 22, not `1*18 + 0 + 1 = 19`: displayed numbers jump
by 4 at every page boundary instead of increasing by exactly 1. -/
theorem C2_page_numbering_eval :
    app_overlay_per_page = 21 ∧ app_rows_per_page = 18 ∧
      app_line_no 1 0 = 22 ∧
      ¬ app_line_no 1 0 = 1 * app_rows_per_page + 0 + 1 := by
  have hpp : app_overlay_per_page = 21 := by
    unfold app_overlay_per_page
    rw [show ((855 : ℚ) / 100 * 72 - (230 : ℚ) / 100 * 72) / ((30 : ℚ) / 100 * 72)
        = ((125 : ℤ) : ℚ) / ((6 : ℕ) : ℚ) by norm_num]
    rw [Rat.floor_intCast_div_natCast]
    decide
  refine ⟨hpp, by decide, ?_, ?_⟩
  · unfold app_line_no
    rw [hpp]
  · unfold app_line_no
    rw [hpp]
    decide

/-- The first-occurrence deduplication of the specification keeps a
sublist of its input (relative order is preserved). -/
theorem specDedup_sublist (l : List Item) : List.Sublist (specDedup l) l := by
  induction l using specDedup.induct with
  | case1 => simp [specDedup]
  | case2 it rest ih =>
    rw [specDedup]
    exact List.Sublist.cons₂ it (ih.trans (List.filter_sublist rest))

/-- Every element of the input occurs exactly once in the
specification-style deduplication. -/
theorem specDedup_count (l : List Item) : ∀ a ∈ l, (specDedup l).count a = 1 := by
  induction l using specDedup.induct with
  | case1 => intro a ha; simp at ha
  | case2 it rest ih =>
    intro a ha
    rw [specDedup]
    by_cases hae : a = it
    · subst hae
      rw [List.count_cons_self]
      have hnot : a ∉ specDedup (rest.filter (fun x => !(x = a : Bool))) := by
        intro hmem
        have h2 := (specDedup_sublist _).subset hmem
        simp at h2
      rw [List.count_eq_zero.mpr hnot]
    · rw [List.count_cons_of_ne hae]
      apply ih
      rcases List.mem_cons.mp ha with h | h
      · exact absurd h hae
      · simp only [List.mem_filter, Bool.not_eq_true', decide_eq_false_iff_not]
        exact ⟨h, hae⟩

/-- The seen-set dedup loop of app.py computes the specification-style
first-occurrence deduplication of the not-yet-seen items. -/
theorem dedupGo_eq_specDedup (l : List Item) :
    ∀ seen, dedupGo seen l = specDedup (l.filter (fun x => !(decide (x ∈ seen)))) := by
  induction l with
  | nil => intro seen; simp [dedupGo, specDedup]
  | cons a rest ih =>
    intro seen
    simp only [dedupGo]
    by_cases ha : a ∈ seen
    · rw [if_pos ha, ih seen]
      have : (a :: rest).filter (fun x => !(decide (x ∈ seen))) =
          rest.filter (fun x => !(decide (x ∈ seen))) := by
        simp [List.filter_cons, ha]
      rw [this]
    · rw [if_neg ha, ih (a :: seen)]
      have h1 : (a :: rest).filter (fun x => !(decide (x ∈ seen))) =
          a :: rest.filter (fun x => !(decide (x ∈ seen))) := by
        simp [List.filter_cons, ha]
      rw [h1, specDedup, List.filter_filter]
      congr 1
      congr 1
      apply List.filter_congr
      intro x hx
      by_cases hxa : x = a
      · simp [hxa]
      · by_cases hxs : x ∈ seen <;> simp [hxa, hxs]

/-- app.py's dedup equals the specification-style deduplication. -/
theorem dedupItems_eq_specDedup (l : List Item) : dedupItems l = specDedup l := by
  rw [dedupItems, dedupGo_eq_specDedup]
  congr 1
  simp

/-- The number of chunks produced by the chunking loop is the ceiling of
`length / per`, for any sufficient fuel and positive page size. -/
theorem chunksF_length {α : Type} (per : Nat) (hper : 0 < per) :
    ∀ (fuel : Nat) (l : List α), l.length ≤ fuel →
      (chunksF per fuel l).length = (l.length + per - 1) / per := by
  intro fuel
  induction fuel with
  | zero =>
    intro l hl
    have hnil : l = [] := List.eq_nil_of_length_eq_zero (Nat.le_zero.mp hl)
    subst hnil
    simp only [chunksF, List.length_nil]
    rw [Nat.div_eq_of_lt (by omega)]
  | succ fuel ih =>
    intro l hl
    match l with
    | [] =>
      simp only [chunksF, List.length_nil]
      rw [Nat.div_eq_of_lt (by omega)]
    | a :: t =>
      simp only [chunksF, List.length_cons]
      rw [ih (t.drop (per - 1)) (by rw [List.length_drop]; simp at hl; omega)]
      rw [List.length_drop]
      have hR : t.length + 1 + per - 1 = t.length + per := by omega
      rw [hR, Nat.add_div_right _ hper]
      rcases Nat.le_total t.length (per - 1) with hc | hc
      · have h1 : t.length - (per - 1) + per - 1 = per - 1 := by omega
        rw [h1, Nat.div_eq_of_lt (by omega), Nat.div_eq_of_lt (by omega)]
      · have h1 : t.length - (per - 1) + per - 1 = t.length := by omega
        rw [h1]

/-- Chunk `i` of the chunking loop holds exactly the elements from
position `i*per` (inclusive) to `(i+1)*per` (exclusive). -/
theorem chunksF_getD {α : Type} (per : Nat) (hper : 0 < per) :
    ∀ (fuel : Nat) (l : List α) (i : Nat), l.length ≤ fuel →
      (chunksF per fuel l).getD i [] = (l.drop (i * per)).take per := by
  intro fuel
  induction fuel with
  | zero =>
    intro l i hl
    have hnil : l = [] := List.eq_nil_of_length_eq_zero (Nat.le_zero.mp hl)
    subst hnil
    simp [chunksF]
  | succ fuel ih =>
    intro l i hl
    match l with
    | [] => simp [chunksF]
    | a :: t =>
      match i with
      | 0 => simp [chunksF]
      | i + 1 =>
        simp only [chunksF, List.getD_cons_succ]
        rw [ih (t.drop (per - 1)) i (by rw [List.length_drop]; simp at hl; omega)]
        rw [List.drop_drop]
        have hmul : (i + 1) * per = i * per + per := by ring
        have h1 : (i + 1) * per = (i * per + (per - 1)) + 1 := by omega
        rw [h1, List.drop_succ_cons]
        have h2 : per - 1 + i * per = i * per + (per - 1) := by omega
        rw [h2]

/-- On a non-empty list, `paginate` returns the chunk list itself. -/
theorem paginate_cons {α : Type} (a : α) (t : List α) (R : Nat) :
    paginate (a :: t) R = chunksL R (a :: t) := rfl

/-- C3: for every record list and every positive `rows_per_page R`,
`paginate` produces `ceil(N / R)` chunks (with ceiling division written
`(N + R - 1) / R`), one rendered page per chunk, chunk `i` holding
exactly the records in `[i*R, (i+1)*R)`; zero records still produce
exactly one empty chunk (one template-only page). The page count of
dd1750_core's `generate_dd1750_from_pdf` agrees with `paginate` at
`R = ROWS_PER_PAGE = 40`, including the one-page case for zero items. -/
theorem C3_pagination {α : Type} (l : List α) (R : Nat) (h : 0 < R) :
    ((paginate l R).length = if l.length = 0 then 1 else (l.length + R - 1) / R) ∧
      (∀ i, i < (paginate l R).length →
        (paginate l R).getD i [] = (l.drop (i * R)).take R) ∧
      core_total_pages l.length = (paginate l ROWS_PER_PAGE).length := by
  have hlen : ∀ (R' : Nat), 0 < R' →
      (paginate l R').length = if l.length = 0 then 1 else (l.length + R' - 1) / R' := by
    intro R' hR'
    match l with
    | [] => simp [paginate, chunksL, chunksF]
    | a :: t =>
      rw [paginate_cons, chunksL, chunksF_length R' hR' _ _ (le_refl _)]
      simp
  refine ⟨hlen R h, ?_, ?_⟩
  · intro i hi
    match l with
    | [] =>
      match i with
      | 0 => simp [paginate, chunksL, chunksF]
      | i + 1 => simp [paginate, chunksL, chunksF] at hi
    | a :: t =>
      rw [paginate_cons, chunksL]
      exact chunksF_getD R h _ _ i (le_refl _)
  · rw [hlen ROWS_PER_PAGE (by decide), core_total_pages]

/-- C3 (witness): the chunk-content law evaluated at a concrete list of
three items with two rows per page: chunk 1 is the singleton third item. -/
theorem C3_witness :
    0 < 2 ∧
      (paginate [(⟨"A", "1", 1⟩ : Item), ⟨"B", "2", 2⟩, ⟨"C", "3", 3⟩] 2).getD 1 [] =
        (([(⟨"A", "1", 1⟩ : Item), ⟨"B", "2", 2⟩, ⟨"C", "3", 3⟩]).drop (1 * 2)).take 2 :=
  ⟨by decide, (C3_pagination [(⟨"A", "1", 1⟩ : Item), ⟨"B", "2", 2⟩, ⟨"C", "3", 3⟩] 2
    (by decide)).2.1 1 (by decide)⟩

/-- C5 (counterexample): the claim is false for the prefix-style
extractor, which performs no deduplication: a document in which the same
`(description, identifier, quantity)` triple is produced twice emits that
triple twice, not once. -/
theorem C5_counterexample :
    ((extract_items_from_pdf [["B FOO 2", "B FOO 2"]]).map
      (fun it => (it.description, it.nsn, it.qty))).count ("FOO", "", 2) = 2 := by
  decide

/-- C5 (amended): in the level-marker variant, the extractor's final
output is exactly the first-occurrence deduplication of the raw record
sequence: it is a sublist of the raw sequence (so the kept occurrence
stays at the position of its first occurrence and the relative order of
all other records is preserved), and every raw record — in particular any
triple produced more than once — appears exactly once. (The prefix-style
variant does not deduplicate; see the counterexample.) -/
theorem C5_amended_dedup (pages : List (List String)) :
    extract_items_bom_style pages = specDedup (extract_raw pages) ∧
      List.Sublist (extract_items_bom_style pages) (extract_raw pages) ∧
      ∀ a ∈ extract_raw pages, (extract_items_bom_style pages).count a = 1 := by
  refine ⟨dedupItems_eq_specDedup _, ?_, ?_⟩
  · rw [extract_items_bom_style, dedupItems_eq_specDedup]
    exact specDedup_sublist _
  · intro a ha
    rw [extract_items_bom_style, dedupItems_eq_specDedup]
    exact specDedup_count _ a ha

/-- C5 (witness): the deduplication evaluated on a concrete document in
which a repeated page-header block produces the same triple twice. -/
theorem C5_witness :
    (⟨"FOO BAR", "1234567", 2⟩ : Item) ∈
        extract_raw [["A", "FOO BAR", "1234567", "X U EA 9G 2",
          "A", "FOO BAR", "1234567", "X U EA 9G 2"]] ∧
      (extract_items_bom_style [["A", "FOO BAR", "1234567", "X U EA 9G 2",
          "A", "FOO BAR", "1234567", "X U EA 9G 2"]]).count ⟨"FOO BAR", "1234567", 2⟩ = 1 :=
  ⟨by decide, (C5_amended_dedup [["A", "FOO BAR", "1234567", "X U EA 9G 2",
      "A", "FOO BAR", "1234567", "X U EA 9G 2"]]).2.2
    ⟨"FOO BAR", "1234567", 2⟩ (by decide)⟩

/-- The head of a `dropWhile` result fails the predicate. -/
theorem dropWhile_head_false (p : Char → Bool) :
    ∀ (l : List Char) (d : Char), (l.dropWhile p).head? = some d → p d = false := by
  intro l
  induction l with
  | nil => intro d hd; simp at hd
  | cons c rest ih =>
    intro d hd
    by_cases pc : p c = true
    · rw [List.dropWhile_cons, if_pos pc] at hd
      exact ih d hd
    · rw [List.dropWhile_cons, if_neg pc] at hd
      simp only [List.head?_cons, Option.some.injEq] at hd
      subst hd
      exact Bool.not_eq_true _ ▸ pc

/-- The tail of a no-double-whitespace list has no double whitespace. -/
theorem noDblWs_tail (a : Char) (l : List Char) (h : noDblWs (a :: l) = true) :
    noDblWs l = true := by
  match l with
  | [] => rfl
  | b :: rest =>
    simp only [noDblWs, Bool.and_eq_true] at h
    exact h.2

/-- `dropWhile` preserves the no-double-whitespace property. -/
theorem noDblWs_dropWhile (p : Char → Bool) :
    ∀ (l : List Char), noDblWs l = true → noDblWs (l.dropWhile p) = true := by
  intro l
  induction l with
  | nil => intro h; exact h
  | cons c rest ih =>
    intro h
    by_cases pc : p c = true
    · rw [List.dropWhile_cons, if_pos pc]
      exact ih (noDblWs_tail c rest h)
    · rw [List.dropWhile_cons, if_neg pc]
      exact h

/-- After the collapse worker has just absorbed whitespace, the next
emitted character is not whitespace. -/
theorem collapseWsAux_true_head :
    ∀ (cs : List Char) (d : Char), (collapseWsAux true cs).head? = some d →
      isWs d = false := by
  intro cs
  induction cs with
  | nil => intro d hd; simp [collapseWsAux] at hd
  | cons c rest ih =>
    intro d hd
    by_cases hc : isWs c = true
    · rw [show collapseWsAux true (c :: rest) = collapseWsAux true rest by
        simp [collapseWsAux, hc]] at hd
      exact ih d hd
    · rw [show collapseWsAux true (c :: rest) = c :: collapseWsAux false rest by
        simp [collapseWsAux, hc]] at hd
      simp only [List.head?_cons, Option.some.injEq] at hd
      subst hd
      exact Bool.not_eq_true _ ▸ hc

/-- The whitespace-collapse worker emits no two adjacent whitespace
characters. -/
theorem collapseWsAux_noDbl :
    ∀ (cs : List Char) (b : Bool), noDblWs (collapseWsAux b cs) = true := by
  intro cs
  induction cs with
  | nil => intro b; rfl
  | cons c rest ih =>
    intro b
    by_cases hc : isWs c = true
    · cases b with
      | true =>
        rw [show collapseWsAux true (c :: rest) = collapseWsAux true rest by
          simp [collapseWsAux, hc]]
        exact ih true
      | false =>
        rw [show collapseWsAux false (c :: rest) = ' ' :: collapseWsAux true rest by
          simp [collapseWsAux, hc]]
        match hx : collapseWsAux true rest with
        | [] => rfl
        | d :: xs =>
          have hd : isWs d = false := collapseWsAux_true_head rest d (by rw [hx]; rfl)
          simp only [noDblWs, Bool.and_eq_true]
          refine ⟨by simp [hd], ?_⟩
          rw [← hx]
          exact ih true
    · rw [show collapseWsAux b (c :: rest) = c :: collapseWsAux false rest by
        cases b <;> simp [collapseWsAux, hc]]
      match hx : collapseWsAux false rest with
      | [] => rfl
      | d :: xs =>
        simp only [noDblWs, Bool.and_eq_true]
        refine ⟨by simp [hc], ?_⟩
        rw [← hx]
        exact ih false

/-- The tail trim either empties a list or preserves its head. -/
theorem trimEnd_head? :
    ∀ (l : List Char), trimEnd l = [] ∨ (trimEnd l).head? = l.head? := by
  intro l
  match l with
  | [] => exact Or.inl rfl
  | c :: rest =>
    match hx : trimEnd rest with
    | [] =>
      by_cases hc : isWs c = true
      · exact Or.inl (by simp [trimEnd, hx, hc])
      · exact Or.inr (by simp [trimEnd, hx, hc])
    | r :: rs => exact Or.inr (by simp [trimEnd, hx])

/-- The tail trim preserves the no-double-whitespace property. -/
theorem trimEnd_noDbl :
    ∀ (l : List Char), noDblWs l = true → noDblWs (trimEnd l) = true := by
  intro l
  induction l with
  | nil => intro h; exact h
  | cons c rest ih =>
    intro h
    match hx : trimEnd rest with
    | [] =>
      by_cases hc : isWs c = true
      · rw [show trimEnd (c :: rest) = [] by simp [trimEnd, hx, hc]]
        rfl
      · rw [show trimEnd (c :: rest) = [c] by simp [trimEnd, hx, hc]]
        rfl
    | d :: rs =>
      rw [show trimEnd (c :: rest) = c :: d :: rs by simp [trimEnd, hx]]
      have htl : noDblWs (d :: rs) = true := by
        rw [← hx]
        exact ih (noDblWs_tail c rest h)
      rcases trimEnd_head? rest with hnil | hhd
      · rw [hnil] at hx
        exact absurd hx (by simp)
      · rw [hx] at hhd
        simp only [List.head?_cons] at hhd
        cases rest with
        | nil => simp at hhd
        | cons e rest' =>
          simp only [List.head?_cons, Option.some.injEq] at hhd
          subst hhd
          simp only [noDblWs, Bool.and_eq_true] at h ⊢
          exact ⟨h.1, htl⟩

/-- The last character after the tail trim is not whitespace. -/
theorem trimEnd_last :
    ∀ (l : List Char) (d : Char), (trimEnd l).getLast? = some d → isWs d = false := by
  intro l
  induction l with
  | nil => intro d hd; simp [trimEnd] at hd
  | cons c rest ih =>
    intro d hd
    match hx : trimEnd rest with
    | [] =>
      by_cases hc : isWs c = true
      · rw [show trimEnd (c :: rest) = [] by simp [trimEnd, hx, hc]] at hd
        simp at hd
      · rw [show trimEnd (c :: rest) = [c] by simp [trimEnd, hx, hc]] at hd
        simp only [List.getLast?_singleton, Option.some.injEq] at hd
        subst hd
        exact Bool.not_eq_true _ ▸ hc
    | e :: rs =>
      rw [show trimEnd (c :: rest) = c :: e :: rs by simp [trimEnd, hx]] at hd
      rw [List.getLast?_cons_cons] at hd
      exact ih d (by rw [hx]; exact hd)

/-- Unfolding the space-join at a cons with a non-empty tail. -/
theorem joinSp_cons_ne (w : List Char) (S : List (List Char)) (h : ¬ S = []) :
    joinSp (w :: S) = w ++ ' ' :: joinSp S := by
  match S with
  | [] => exact absurd rfl h
  | s :: S' => rfl

/-- Merging two adjacent words of a space-join into one space-separated
piece does not change the joined string. -/
theorem joinSp_mid :
    ∀ (xs : List (List Char)) (a b : List Char) (ys : List (List Char)),
      joinSp (xs ++ (a ++ ' ' :: b) :: ys) = joinSp (xs ++ a :: b :: ys) := by
  intro xs
  induction xs with
  | nil =>
    intro a b ys
    match ys with
    | [] => simp [joinSp]
    | y :: ys' =>
      simp only [List.nil_append]
      rw [joinSp_cons_ne _ _ (by simp), joinSp_cons_ne a _ (by simp),
        joinSp_cons_ne b _ (by simp)]
      simp
  | cons x xs' ih =>
    intro a b ys
    simp only [List.cons_append]
    rw [joinSp_cons_ne x _ (by simp), joinSp_cons_ne x _ (by simp), ih]

/-- The split worker never returns an empty list of words. -/
theorem splitSpAux_ne_nil : ∀ (cs acc : List Char), ¬ splitSpAux cs acc = [] := by
  intro cs
  induction cs with
  | nil => intro acc; simp [splitSpAux]
  | cons c rest ih =>
    intro acc
    by_cases hc : c = ' '
    · simp [splitSpAux, hc]
    · simp only [splitSpAux, if_neg hc]
      exact ih (c :: acc)

/-- Joining the words of the split worker recovers the input (prefixed by
the pending accumulator). -/
theorem joinSp_splitSpAux :
    ∀ (cs acc : List Char), joinSp (splitSpAux cs acc) = acc.reverse ++ cs := by
  intro cs
  induction cs with
  | nil => intro acc; simp [splitSpAux, joinSp]
  | cons c rest ih =>
    intro acc
    by_cases hc : c = ' '
    · subst hc
      rw [show splitSpAux (' ' :: rest) acc = acc.reverse :: splitSpAux rest [] by
        simp [splitSpAux]]
      rw [joinSp_cons_ne _ _ (splitSpAux_ne_nil rest []), ih []]
      simp
    · simp only [splitSpAux, if_neg hc]
      rw [ih (c :: acc)]
      simp

/-- Python `" ".join(text.split(" ")) == text`. -/
theorem joinSp_splitSp (cs : List Char) : joinSp (splitSp cs) = cs := by
  rw [splitSp, joinSp_splitSpAux]
  simp

/-- In a list with no double whitespace, whose last character is not a
space, the split worker produces no empty word, provided the accumulator
is non-empty or the list starts with a non-space character. -/
theorem splitSpAux_words_ne :
    ∀ (cs acc : List Char),
      noDblWs cs = true →
      (∀ d, cs.getLast? = some d → ¬ d = ' ') →
      (¬ acc = [] ∨ ∃ c rest, cs = c :: rest ∧ ¬ c = ' ') →
      ∀ w ∈ splitSpAux cs acc, ¬ w = [] := by
  intro cs
  induction cs with
  | nil =>
    intro acc hdbl hlast hstart w hw
    simp only [splitSpAux, List.mem_singleton] at hw
    subst hw
    rcases hstart with hacc | ⟨c, rest, hcs, _⟩
    · simp only [ne_eq, List.reverse_eq_nil_iff]
      exact hacc
    · exact absurd hcs (by simp)
  | cons c rest ih =>
    intro acc hdbl hlast hstart w hw
    by_cases hc : c = ' '
    · subst hc
      simp only [splitSpAux, if_pos rfl] at hw
      rcases List.mem_cons.mp hw with hw1 | hw2
      · subst hw1
        rcases hstart with hacc | ⟨c', rest', hcs, hcne⟩
        · simp only [ne_eq, List.reverse_eq_nil_iff]
          exact hacc
        · injection hcs with h1 _
          exact absurd h1.symm hcne
      · refine ih [] (noDblWs_tail _ _ hdbl) ?_ ?_ w hw2
        · intro d hd
          apply hlast d
          cases rest with
          | nil => simp at hd
          | cons r rest' => rw [List.getLast?_cons_cons]; exact hd
        · right
          cases rest with
          | nil => exact absurd rfl (hlast ' ' rfl)
          | cons r rest' =>
            refine ⟨r, rest', rfl, ?_⟩
            have hpair := hdbl
            simp only [noDblWs, Bool.and_eq_true, Bool.not_eq_true'] at hpair
            rcases Bool.and_eq_false_iff.mp hpair.1 with hws | hws
            · simp [isWs] at hws
            · intro hr
              subst hr
              simp [isWs] at hws
    · simp only [splitSpAux, if_neg hc] at hw
      refine ih (c :: acc) (noDblWs_tail _ _ hdbl) ?_ (Or.inl (by simp)) w hw
      intro d hd
      apply hlast d
      cases rest with
      | nil => simp at hd
      | cons r rest' => rw [List.getLast?_cons_cons]; exact hd

/-- When every word fits the maximum width on its own and the run is not
truncated at the line cap (certified by the result having fewer lines
than the cap), the word loop of `_wrap_to_width` emits exactly the
pending lines, the current line, and the remaining words, in order: its
space-join is the space-join of that whole sequence. -/
theorem wrapGo_join (cw : Char → Nat) (maxW maxLines : Nat) :
    ∀ (ws lines : List (List Char)) (cur : List Char),
      (∀ w ∈ ws, strW cw w ≤ maxW ∧ ¬ w = []) →
      (wrapGo cw maxW maxLines ws lines cur).length < maxLines →
      joinSp (wrapGo cw maxW maxLines ws lines cur) =
        joinSp (lines ++ (if cur.isEmpty then [] else [cur]) ++ ws) := by
  intro ws
  induction ws with
  | nil =>
    intro lines cur hws hlen
    by_cases hcur : cur.isEmpty
    · rw [show wrapGo cw maxW maxLines [] lines cur =
          (if maxLines < lines.length then lines.take maxLines else lines) by
        simp [wrapGo, hcur]] at hlen ⊢
      by_cases htr : maxLines < lines.length
      · rw [if_pos htr] at hlen
        rw [List.length_take] at hlen
        exfalso
        omega
      · rw [if_neg htr]
        simp [hcur]
    · rw [show wrapGo cw maxW maxLines [] lines cur =
          (if maxLines < (lines ++ [cur]).length then (lines ++ [cur]).take maxLines
            else lines ++ [cur]) by simp [wrapGo, hcur]] at hlen ⊢
      by_cases htr : maxLines < (lines ++ [cur]).length
      · rw [if_pos htr] at hlen
        rw [List.length_take] at hlen
        exfalso
        omega
      · rw [if_neg htr]
        simp [hcur]
  | cons w ws' ih =>
    intro lines cur hws hlen
    have hw := hws w (List.mem_cons_self w ws')
    have hws' : ∀ x ∈ ws', strW cw x ≤ maxW ∧ ¬ x = [] :=
      fun x hx => hws x (List.mem_cons_of_mem w hx)
    have hwE : w.isEmpty = false := by
      cases w with
      | nil => exact absurd rfl hw.2
      | cons _ _ => rfl
    by_cases hcur : cur.isEmpty
    · have hfitw : fitsW cw maxW w = true := by
        simp only [fitsW, decide_eq_true_eq]
        exact hw.1
      rw [show wrapGo cw maxW maxLines (w :: ws') lines cur =
          wrapGo cw maxW maxLines ws' lines w by
        simp [wrapGo, hcur, hfitw]] at hlen ⊢
      rw [ih lines w hws' hlen]
      simp [hcur, hwE]
    · by_cases hfit : fitsW cw maxW (cur ++ ' ' :: w) = true
      · have htrialE : (cur ++ ' ' :: w).isEmpty = false := by
          cases cur with
          | nil => simp at hcur
          | cons _ _ => rfl
        rw [show wrapGo cw maxW maxLines (w :: ws') lines cur =
            wrapGo cw maxW maxLines ws' lines (cur ++ ' ' :: w) by
          simp [wrapGo, hcur, hfit]] at hlen ⊢
        rw [ih lines (cur ++ ' ' :: w) hws' hlen]
        rw [htrialE]
        simp only [Bool.false_eq_true, if_false, List.append_assoc, List.singleton_append]
        rw [joinSp_mid lines cur w ws']
        simp [hcur]
      · rw [show wrapGo cw maxW maxLines (w :: ws') lines cur =
            (if maxLines ≤ (lines ++ [cur]).length then (lines ++ [cur]).take maxLines
              else wrapGo cw maxW maxLines ws' (lines ++ [cur]) w) by
          simp [wrapGo, hcur, hfit]] at hlen ⊢
        by_cases htr : maxLines ≤ (lines ++ [cur]).length
        · rw [if_pos htr] at hlen
          rw [List.length_take] at hlen
          exfalso
          omega
        · rw [if_neg htr] at hlen ⊢
          rw [ih (lines ++ [cur]) w hws' hlen]
          simp [hcur, hwE]

/-- C8 (evaluation at the failing input): the claim "every line returned
by the description word-wrap has measured glyph width at most the maximum
width" fails. With unit character widths and maximum width 3, the text
`ab cccc` wraps to the lines `ab` and `cccc`: after the first line
overflows, the source assigns `cur = w if fits(w) else w` — both branches
identical — so the over-wide word `cccc` (width 4 > 3) is kept whole and
emitted as a full line instead of being hard-broken. -/
theorem C8_wrap_width_eval :
    wrap_to_width cwOne 3 2 "ab cccc".toList = [['a', 'b'], ['c', 'c', 'c', 'c']] ∧
      strW cwOne ['c', 'c', 'c', 'c'] = 4 ∧ ¬ strW cwOne ['c', 'c', 'c', 'c'] ≤ 3 := by
  decide

/-- C9 (counterexample): the round-trip claim fails as stated. With unit
character widths, maximum width 3 and line cap 5, the text `cccc ab`
wraps (hard-breaking the over-wide first word) to `ccc`, `c`, `ab` —
three lines, strictly below the cap, so nothing was truncated — yet
neither the space-join nor the bare concatenation of the lines
reproduces the whitespace-normalized input `cccc ab`. -/
theorem C9_counterexample :
    wrap_to_width cwOne 3 5 "cccc ab".toList = [['c', 'c', 'c'], ['c'], ['a', 'b']] ∧
      (wrap_to_width cwOne 3 5 "cccc ab".toList).length < 5 ∧
      ¬ joinSp (wrap_to_width cwOne 3 5 "cccc ab".toList) = normalizeWs "cccc ab".toList ∧
      ¬ (wrap_to_width cwOne 3 5 "cccc ab".toList).flatten = normalizeWs "cccc ab".toList := by
  decide

/-- C9 (amended): for every description, font metric, maximum width and
line cap, IF no word of the normalized text is wider than the maximum
width on its own (so no hard-break occurs) AND the wrapped result is not
truncated at the line cap (certified by having fewer lines than the cap),
THEN joining the wrapped lines with single spaces reproduces the
whitespace-normalized input text: wrapping neither drops, duplicates,
nor reorders any word. -/
theorem C9_amended_roundtrip (cw : Char → Nat) (maxW maxLines : Nat) (text : List Char)
    (hfit : ∀ w ∈ splitSp (normalizeWs text), strW cw w ≤ maxW)
    (hlen : (wrap_to_width cw maxW maxLines text).length < maxLines) :
    joinSp (wrap_to_width cw maxW maxLines text) = normalizeWs text := by
  by_cases hemp : (normalizeWs text).isEmpty
  · rw [show wrap_to_width cw maxW maxLines text = [[]] by simp [wrap_to_width, hemp]]
    have hnil : normalizeWs text = [] := by simpa using hemp
    rw [hnil]
    rfl
  · have hne : ¬ normalizeWs text = [] := by simpa using hemp
    rw [show wrap_to_width cw maxW maxLines text =
        wrapGo cw maxW maxLines (splitSp (normalizeWs text)) [] [] by
      simp [wrap_to_width, hemp]] at hlen ⊢
    have hnodbl : noDblWs (normalizeWs text) = true := by
      rw [normalizeWs, trimC]
      exact trimEnd_noDbl _ (noDblWs_dropWhile isWs _ (collapseWsAux_noDbl text false))
    have hlast : ∀ d, (normalizeWs text).getLast? = some d → ¬ d = ' ' := by
      intro d hd
      have hws : isWs d = false :=
        trimEnd_last _ d (by rw [normalizeWs, trimC] at hd; exact hd)
      intro he
      subst he
      simp [isWs] at hws
    have hstart : ∃ c rest, normalizeWs text = c :: rest ∧ ¬ c = ' ' := by
      cases hx : normalizeWs text with
      | nil => exact absurd hx hne
      | cons c rest =>
        refine ⟨c, rest, rfl, ?_⟩
        rcases trimEnd_head? ((collapseWs text).dropWhile isWs) with hnil | hhd
        · rw [normalizeWs, trimC, hnil] at hx
          exact absurd hx.symm (by simp)
        · rw [normalizeWs, trimC] at hx
          rw [hx] at hhd
          simp only [List.head?_cons] at hhd
          have hws : isWs c = false := dropWhile_head_false isWs _ c hhd.symm
          intro he
          subst he
          simp [isWs] at hws
    have hwords : ∀ w ∈ splitSp (normalizeWs text), strW cw w ≤ maxW ∧ ¬ w = [] := by
      intro w hw
      refine ⟨hfit w hw, ?_⟩
      refine splitSpAux_words_ne (normalizeWs text) [] hnodbl hlast (Or.inr hstart) w ?_
      rw [splitSp] at hw
      exact hw
    rw [wrapGo_join cw maxW maxLines (splitSp (normalizeWs text)) [] [] hwords hlen]
    simp only [List.nil_append, List.isEmpty_nil, if_true]
    exact joinSp_splitSp _

/-- C9 (witness): the amended round-trip evaluated on a concrete
description, metric, width and cap. -/
theorem C9_witness :
    (∀ w ∈ splitSp (normalizeWs "ab cd".toList), strW cwOne w ≤ 10) ∧
      (wrap_to_width cwOne 10 3 "ab cd".toList).length < 3 ∧
      joinSp (wrap_to_width cwOne 10 3 "ab cd".toList) = normalizeWs "ab cd".toList :=
  ⟨by decide, by decide,
    C9_amended_roundtrip cwOne 10 3 "ab cd".toList (by decide) (by decide)⟩

end DD1750
